import Mathlib

set_option maxRecDepth 100000

/-!
Verification of the rsky repository core against its specification.

The development shallowly embeds, in Lean 4:

* the Merkle Search Tree (MST) node operations of
  `rsky-pds/src/repo/mst/mod.rs` (hydrated trees: every node's entry list is
  in memory, as in the Rust `MST` with `entries = Some(..)`);
* the helper module `rsky-pds/src/repo/mst/util.rs`, which is declared
  (`pub mod util;`) but whose source is not part of the reviewed tree; its
  functions are modelled from the specification where so marked;
* the IPLD / Lex value model and its DAG-JSON conversions from
  `rsky-common-web/src/ipld.rs`, `rsky-lexicon/src/serialize.rs` and
  `rsky-lexicon/src/blob_refs.rs`.

Machine integers are modelled as `Nat`/`Int` with explicit `% 2^32` where the
code relies on 32-bit wrap-around (SHA-256 only; all other arithmetic in the
embedded code stays far from overflow).  Fallible Rust functions returning
`Result` are embedded as `Except String`.
-/

/-! ### SHA-256

`mst/util.rs` computes a key's MST layer from the SHA-256 digest of the key.
SHA-256 itself comes from an external crate; it is embedded here concretely
(FIPS 180-4), operating on byte lists, so that layers of concrete keys can be
evaluated inside Lean. -/

namespace Sha256

def add32 (a b : Nat) : Nat := (a + b) % 4294967296

/-- Right-rotation of a 32-bit word. -/
def rotr (n x : Nat) : Nat := ((x >>> n) ||| (x <<< (32 - n))) &&& 4294967295

def shr (n x : Nat) : Nat := x >>> n

def bigSigma0 (x : Nat) : Nat := (rotr 2 x) ^^^ (rotr 13 x) ^^^ (rotr 22 x)
def bigSigma1 (x : Nat) : Nat := (rotr 6 x) ^^^ (rotr 11 x) ^^^ (rotr 25 x)
def smallSigma0 (x : Nat) : Nat := (rotr 7 x) ^^^ (rotr 18 x) ^^^ (shr 3 x)
def smallSigma1 (x : Nat) : Nat := (rotr 17 x) ^^^ (rotr 19 x) ^^^ (shr 10 x)

def ch (x y z : Nat) : Nat := (x &&& y) ^^^ ((x ^^^ 4294967295) &&& z)
def maj (x y z : Nat) : Nat := (x &&& y) ^^^ (x &&& z) ^^^ (y &&& z)

/-- The 64 round constants. -/
def K : Array Nat := #[
  1116352408, 1899447441, 3049323471, 3921009573, 961987163,
  1508970993, 2453635748, 2870763221, 3624381080, 310598401,
  607225278, 1426881987, 1925078388, 2162078206, 2614888103,
  3248222580, 3835390401, 4022224774, 264347078, 604807628,
  770255983, 1249150122, 1555081692, 1996064986, 2554220882,
  2821834349, 2952996808, 3210313671, 3336571891, 3584528711,
  113926993, 338241895, 666307205, 773529912, 1294757372,
  1396182291, 1695183700, 1986661051, 2177026350, 2456956037,
  2730485921, 2820302411, 3259730800, 3345764771, 3516065817,
  3600352804, 4094571909, 275423344, 430227734, 506948616,
  659060556, 883997877, 958139571, 1322822218, 1537002063,
  1747873779, 1955562222, 2024104815, 2227730452, 2361852424,
  2428436474, 2756734187, 3204031479, 3329325298]

/-- The initial hash state. -/
def H0 : Array Nat := #[
  1779033703, 3144134277, 1013904242,
  2773480762, 1359893119, 2600822924,
  528734635, 1541459225]

/-- Big-endian 8-byte encoding of a (length) value. -/
def toBE8 (n : Nat) : List Nat :=
  [(n >>> 56) &&& 255, (n >>> 48) &&& 255, (n >>> 40) &&& 255,
   (n >>> 32) &&& 255, (n >>> 24) &&& 255, (n >>> 16) &&& 255,
   (n >>> 8) &&& 255, n &&& 255]

/-- Message padding: append `0x80`, zero bytes to 56 mod 64, then the bit
length as 8 big-endian bytes. -/
def pad (msg : List Nat) : List Nat :=
  let z := (119 - (msg.length % 64)) % 64
  msg ++ [128] ++ List.replicate z 0 ++ toBE8 (8 * msg.length)

/-- Group a byte list into big-endian 32-bit words. -/
def toWords : List Nat → List Nat
  | a :: b :: c :: d :: rest =>
      ((((a <<< 8) ||| b) <<< 8 ||| c) <<< 8 ||| d) :: toWords rest
  | _ => []

/-- Extend 16 message words to the 64-entry schedule. -/
def extend (w : Array Nat) : Array Nat :=
  (List.range 48).foldl (fun w j =>
    let i := j + 16
    let x := add32
      (add32 (smallSigma1 (w.getD (i - 2) 0)) (w.getD (i - 7) 0))
      (add32 (smallSigma0 (w.getD (i - 15) 0)) (w.getD (i - 16) 0))
    w.push x) w

/-- One compression round. -/
def round (w : Array Nat) (st : Array Nat) (i : Nat) : Array Nat :=
  let a := st.getD 0 0; let b := st.getD 1 0; let c := st.getD 2 0
  let d := st.getD 3 0; let e := st.getD 4 0; let f := st.getD 5 0
  let g := st.getD 6 0; let h := st.getD 7 0
  let t1 := add32 (add32 (add32 h (bigSigma1 e)) (add32 (ch e f g) (K.getD i 0)))
    (w.getD i 0)
  let t2 := add32 (bigSigma0 a) (maj a b c)
  #[add32 t1 t2, a, b, c, add32 d t1, e, f, g]

/-- Compress one 64-byte chunk into the running state. -/
def compress (hsh : Array Nat) (chunk : List Nat) : Array Nat :=
  let w := extend (Array.mk (toWords chunk))
  let st := (List.range 64).foldl (round w) hsh
  (Array.range 8).map fun i => add32 (hsh.getD i 0) (st.getD i 0)

/-- Split off the first `n` bytes. -/
def splitChunk : Nat → List Nat → (List Nat × List Nat)
  | _, [] => ([], [])
  | 0, l => ([], l)
  | n + 1, a :: t => let (c, r) := splitChunk n t; (a :: c, r)

/-- Cut a message into 64-byte chunks.  The first argument is fuel (any bound
on the number of chunks); recursion is structural so the definition evaluates
by reduction. -/
def chunksF : Nat → List Nat → List (List Nat)
  | 0, _ => []
  | _ + 1, [] => []
  | f + 1, a :: t =>
      let (c, r) := splitChunk 63 t
      (a :: c) :: chunksF f r

def chunks (l : List Nat) : List (List Nat) := chunksF l.length l

/-- SHA-256 of a byte list, as the 32 digest bytes. -/
def sha256 (msg : List Nat) : List Nat :=
  let final := ((chunks (pad msg)).foldl compress H0).toList
  final.flatMap fun wd =>
    [(wd >>> 24) &&& 255, (wd >>> 16) &&& 255, (wd >>> 8) &&& 255, wd &&& 255]

end Sha256

/-- Number of leading zero bits of a single byte. -/
def byteLeadingZeros (b : Nat) : Nat :=
  if b ≥ 128 then 0 else if b ≥ 64 then 1 else if b ≥ 32 then 2
  else if b ≥ 16 then 3 else if b ≥ 8 then 4 else if b ≥ 4 then 5
  else if b ≥ 2 then 6 else if b ≥ 1 then 7 else 8

/-- Number of leading zero bits of a digest given as big-endian bytes. -/
def leadingZeroBits : List Nat → Nat
  | [] => 0
  | b :: rest => if b = 0 then 8 + leadingZeroBits rest else byteLeadingZeros b

/-- The UTF-8 bytes of a string.  MST keys are restricted to ASCII, where the
byte sequence is the codepoint sequence. -/
def strBytes (s : String) : List Nat := s.data.map Char.toNat

/-- Modelled from the spec: `util::leading_zeros_on_hash` —
"L = ⌊leading_zero_bits(SHA-256(key)) / 5⌋ (fanout 32)": the layer of a key is
the number of leading zero 5-bit groups of its SHA-256 digest. -/
def keyZeros (key : String) : Nat :=
  leadingZeroBits (Sha256.sha256 (strBytes key)) / 5


/-! ### MST data model (`rsky-pds/src/repo/mst/mod.rs`)

The embedding covers hydrated trees: the Rust `MST` struct's
`entries: Option<Vec<NodeEntry>>` is always `Some` here, and the lazy
`pointer`/`outdated_pointer` pair is replaced by recomputing the pointer from
the entries (`get_pointer` either returns a pointer computed by `MST::create`
from the same entries, or recomputes it through `serialize`; both equal
`cid_for_cbor(serialize_node_data(entries))`).  The `storage` handle carries
no observable state for hydrated trees and is dropped.

CIDs: `cid_for_cbor` of a serialized node is modelled as the injective
constructor `MstCid.node` applied to the `NodeData` (SHA-256 hashing of the
canonical CBOR is treated as collision-free); caller-supplied record CIDs are
`MstCid.val`.  The `k` field of a `TreeEntry` is a byte string in Rust and a
`List Char` here (MST keys are ASCII, one byte per char). -/

mutual

inductive MstCid where
  | val (n : Nat)
  | node (d : NodeData)

inductive NodeData where
  | mk (l : Option MstCid) (e : List TreeEntry)

inductive TreeEntry where
  | mk (p : Nat) (k : List Char) (v : MstCid) (t : Option MstCid)

end

mutual

/-- `NodeEntry`: either a `Leaf { key, value }` or a subtree (`NodeEntry::MST`). -/
inductive NodeEntry where
  | leaf (key : String) (value : MstCid)
  | tree (t : MST)

/-- A hydrated MST node: its in-memory entry list and the optional layer hint. -/
inductive MST where
  | mk (entries : List NodeEntry) (layer : Option Nat)

end

def MST.entries : MST → List NodeEntry
  | .mk es _ => es

def MST.layer : MST → Option Nat
  | .mk _ ly => ly

/-- The empty tree (`MST::create(storage, None, None)`). -/
def emptyMst : MST := .mk [] none

mutual

/-- Size of a tree (number of constructors), used as a recursion-depth bound
(`sizeOf` is not executable for nested mutual inductives). -/
def MST.size : MST → Nat
  | .mk es _ => 1 + entriesSize es

/-- Size of an entry list. -/
def entriesSize : List NodeEntry → Nat
  | [] => 1
  | .leaf _ _ :: rest => 1 + entriesSize rest
  | .tree m :: rest => 1 + m.size + entriesSize rest

end

mutual

/-- In-order leaves of a tree. -/
def MST.leavesGo : MST → List (String × MstCid)
  | .mk es _ => entriesLeaves es

/-- In-order leaves of an entry list, descending through subtrees. -/
def entriesLeaves : List NodeEntry → List (String × MstCid)
  | [] => []
  | .leaf k v :: rest => (k, v) :: entriesLeaves rest
  | .tree m :: rest => m.leavesGo ++ entriesLeaves rest

end

/-- In-order leaf keys of an entry list. -/
def entriesKeys (es : List NodeEntry) : List String :=
  (entriesLeaves es).map Prod.fst

/-- In-order leaves of a tree (`MST::leaves`). -/
def MST.leaves (t : MST) : List (String × MstCid) := t.leavesGo

/-- In-order leaf keys of a tree. -/
def MST.keys (t : MST) : List String := entriesKeys t.entries

/-! #### Layers -/

/-- Modelled from the spec: `util::layer_for_entries` — the layer of a node is
read off its first leaf ("All leaves in a node share the same layer L",
"L = ⌊leading_zero_bits(SHA-256(key)) / 5⌋"). -/
def layerForEntries (es : List NodeEntry) : Option Nat :=
  ((es.filterMap fun e => match e with | .leaf k _ => some k | _ => none).head?).map keyZeros

mutual

/-- `MST::attempt_get_layer`: the stored hint, else the layer of the first
leaf, else one more than the first determinable child layer. -/
def MST.attemptGetLayer : MST → Option Nat
  | .mk _ (some l) => some l
  | .mk es none => match layerForEntries es with
    | some l => some l
    | none => childLayerSearch es

/-- The child-scanning loop of `MST::attempt_get_layer`: find the first
subtree whose layer is determinable and add one. -/
def childLayerSearch : List NodeEntry → Option Nat
  | [] => none
  | .leaf _ _ :: rest => childLayerSearch rest
  | .tree m :: rest =>
      match m.attemptGetLayer with
      | some c => some (c + 1)
      | none => childLayerSearch rest

end

/-- `MST::get_layer`: `attempt_get_layer`, defaulting to 0 for an empty tree. -/
def MST.getLayer (t : MST) : Nat := t.attemptGetLayer.getD 0

/-! #### Serialization (`util::serialize_node_data`, modelled from the spec)

Modelled from the spec: a `NodeData` holds the left-subtree pointer `l` and
the entry list `e`, each entry carrying the prefix length `p` shared with the
previous key, the key suffix `k`, the value `v` and the optional right subtree
`t`.  Entries after the first position must alternate leaf / optional subtree;
two adjacent subtrees cannot be represented (spec invariant 5) and serializing
them is an error. -/

/-- Length of the longest common prefix of two char lists. -/
def commonPrefixLen : List Char → List Char → Nat
  | a :: as, b :: bs => if a = b then commonPrefixLen as bs + 1 else 0
  | _, _ => 0

mutual

/-- Serialize a node's entry list to `NodeData`.  The fuel (first argument)
only bounds the recursion depth; `entriesSize` always suffices. -/
def serNodeF : Nat → List NodeEntry → Except String NodeData
  | 0, _ => throw "recursion limit"
  | _ + 1, [] => pure (.mk none [])
  | f + 1, .tree (.mk ces _) :: rest => do
      let d ← serNodeF f ces
      let tes ← serTailF f [] rest
      pure (.mk (some (.node d)) tes)
  | f + 1, .leaf k v :: rest =>
      let kd := k.data
      let p := commonPrefixLen [] kd
      match rest with
      | .tree (.mk ces _) :: rest2 => do
          let d ← serNodeF f ces
          let tes ← serTailF f kd rest2
          pure (.mk none (.mk p (kd.drop p) v (some (.node d)) :: tes))
      | _ => do
          let tes ← serTailF f kd rest
          pure (.mk none (.mk p (kd.drop p) v none :: tes))

/-- Serialize the entries after the first position; `prev` is the previous
full key. -/
def serTailF : Nat → List Char → List NodeEntry → Except String (List TreeEntry)
  | 0, _, _ => throw "recursion limit"
  | _ + 1, _, [] => pure []
  | _ + 1, _, .tree _ :: _ =>
      throw "Not a valid node: two subtrees next to each other"
  | f + 1, prev, .leaf k v :: rest =>
      let kd := k.data
      let p := commonPrefixLen prev kd
      match rest with
      | .tree (.mk ces _) :: rest2 => do
          let d ← serNodeF f ces
          let tes ← serTailF f kd rest2
          pure (.mk p (kd.drop p) v (some (.node d)) :: tes)
      | _ => do
          let tes ← serTailF f kd rest
          pure (.mk p (kd.drop p) v none :: tes)

end

/-- Modelled from the spec: `util::serialize_node_data` on an entry list. -/
def serializeNode (es : List NodeEntry) : Except String NodeData :=
  serNodeF (entriesSize es) es

/-- `MST::get_pointer` (equivalently `util::cid_for_entries` on the entry
list): the CID of the serialized node. -/
def MST.getPointer (t : MST) : Except String MstCid :=
  (serializeNode t.entries).map .node

mutual

/-- Keys reconstructed from a serialized subtree pointer (empty for a record
value CID). -/
def cidKeys : MstCid → List String
  | .val _ => []
  | .node d => dataKeysGo d

/-- Keys reconstructed, in order, from serialized `NodeData`. -/
def dataKeysGo : NodeData → List String
  | .mk l es =>
      (match l with
       | some (.node d) => dataKeysGo d
       | _ => []) ++ dataTailKeys [] es

/-- Keys reconstructed from serialized entries, threading the previous key. -/
def dataTailKeys : List Char → List TreeEntry → List String
  | _, [] => []
  | prev, .mk p k _ tp :: rest =>
      let key := prev.take p ++ k
      String.mk key ::
        ((match tp with
          | some (.node d) => dataKeysGo d
          | _ => []) ++ dataTailKeys key rest)

end

/-! #### Simple operations -/

/-- `MST::new_tree`: a copy with new entries (the Rust original also marks the
pointer outdated; pointers are recomputed on demand here). -/
def MST.newTree (t : MST) (entries : List NodeEntry) : MST := .mk entries t.layer

/-- `MST::at_index`. -/
def MST.atIndex (t : MST) (i : Nat) : Option NodeEntry := t.entries.get? i

/-- `MST::at_index(index - 1)` as the callers invoke it: `index` is a `usize`,
so at `index = 0` the subtraction wraps around and the lookup misses (the
TypeScript original this code ports indexes with `-1`, which is likewise
out of range). -/
def MST.atPrevIndex (t : MST) (i : Nat) : Option NodeEntry :=
  if i = 0 then none else t.entries.get? (i - 1)

/-- Lexicographic `≤` on codepoint lists (Rust compares `String`s by their
UTF-8 bytes; UTF-8 byte order agrees with codepoint order, and MST keys are
ASCII anyway). -/
def charListLe : List Char → List Char → Bool
  | [], _ => true
  | _ :: _, [] => false
  | a :: as, b :: bs =>
    if a.toNat < b.toNat then true
    else if b.toNat < a.toNat then false
    else charListLe as bs

def strLe (a b : String) : Bool := charListLe a.data b.data

/-- `MST::find_gt_or_equal_leaf_index`: the position, within the node's
leaves only (`filter_map` then `position`), of the first leaf whose key is
`>=` the argument; the full entry-list length when there is none. -/
def MST.findGtOrEqualLeafIndex (t : MST) (key : String) : Nat :=
  match (t.entries.filterMap fun e => match e with
      | .leaf k _ => some k
      | _ => none).findIdx? (fun lk => strLe key lk) with
  | some i => i
  | none => t.entries.length

/-- `MST::splice_in`. -/
def MST.spliceIn (t : MST) (e : NodeEntry) (i : Nat) : MST :=
  t.newTree (t.entries.take i ++ [e] ++ t.entries.drop i)

/-- `MST::update_entry`. -/
def MST.updateEntry (t : MST) (i : Nat) (e : NodeEntry) : MST :=
  t.newTree (t.entries.take i ++ [e] ++ t.entries.drop (i + 1))

/-- `MST::remove_entry`. -/
def MST.removeEntry (t : MST) (i : Nat) : MST :=
  t.newTree (t.entries.take i ++ t.entries.drop (i + 1))

/-- `MST::append`. -/
def MST.append (t : MST) (e : NodeEntry) : MST :=
  t.newTree (t.entries ++ [e])

/-- `MST::replace_with_split`. -/
def MST.replaceWithSplit (t : MST) (i : Nat) (l : Option MST) (key : String)
    (value : MstCid) (r : Option MST) : MST :=
  t.newTree (t.entries.take i
    ++ (match l with | some l => [NodeEntry.tree l] | none => [])
    ++ [NodeEntry.leaf key value]
    ++ (match r with | some r => [NodeEntry.tree r] | none => [])
    ++ t.entries.drop (i + 1))

/-- `MST::trim_top`: while the node is a single subtree, replace it by that
subtree. -/
def MST.trimTop : MST → MST
  | .mk [NodeEntry.tree n] _ => n.trimTop
  | t => t

/-- `MST::create_child`: an empty node one layer down (`MST::create` of an
empty entry list always serializes). -/
def MST.createChild (t : MST) : Except String MST :=
  pure (.mk [] (some (t.getLayer - 1)))

/-- `MST::create_parent`: wrap in a single-subtree node one layer up;
`MST::create` computes the pointer eagerly, so serialization errors
propagate. -/
def MST.createParent (t : MST) : Except String MST := do
  let _ ← serializeNode [NodeEntry.tree t]
  pure (.mk [NodeEntry.tree t] (some (t.getLayer + 1)))

/-- `MST::create` with explicit entries: computes (and here validates) the
pointer eagerly via `cid_for_entries`. -/
def createChecked (entries : List NodeEntry) (layer : Option Nat) :
    Except String MST := do
  let _ ← serializeNode entries
  pure (.mk entries layer)

/-! #### Recursive operations

These recurse through entries found by index lookup, which is not a
structural pattern, so each takes explicit fuel and is structurally recursive
on it (hence evaluable by reduction).  Fuel only bounds the recursion depth:
every recursive call descends into a proper subtree except `add`'s
empty-child chain, which is bounded by the layer difference; the public
wrappers pass a bound that covers both.  All general theorems below quantify
over the fuel and are conditioned on an `ok` result. -/

/-- `MST::get` (mod.rs:541-554). -/
def getF : Nat → MST → String → Except String (Option MstCid)
  | 0, _, _ => throw "recursion limit"
  | f + 1, t, key =>
    let index := t.findGtOrEqualLeafIndex key
    let hit := match t.atIndex index with
      | some (.leaf k v) => if k == key then some v else none
      | _ => none
    match hit with
    | some v => pure (some v)
    | none =>
      match t.atPrevIndex index with
      | some (.tree p) => getF f p key
      | _ => pure none

def MST.get (t : MST) (key : String) : Except String (Option MstCid) :=
  getF t.size t key

/-- `MST::split_around` (mod.rs:736-769).  Note the source assigns
`right = left.append(s1)` when the recursive split returns a right half. -/
def splitAroundF : Nat → MST → String → Except String (Option MST × Option MST)
  | 0, _, _ => throw "recursion limit"
  | f + 1, t, key => do
    let index := t.findGtOrEqualLeafIndex key
    let leftData := t.entries.take index
    let rightData := t.entries.drop index
    let left0 := t.newTree leftData
    let right0 := t.newTree rightData
    let (left, right) ←
      match leftData.getLast? with
      | some (NodeEntry.tree last) => do
          let left1 := left0.removeEntry (leftData.length - 1)
          let (s0, s1) ← splitAroundF f last key
          let left2 := match s0 with
            | some s0 => left1.append (.tree s0)
            | none => left1
          let right2 := match s1 with
            | some s1 => left2.append (.tree s1)
            | none => right0
          pure (left2, right2)
      | _ => pure (left0, right0)
    pure ((if left.entries.length = 0 then none else some left),
          (if right.entries.length = 0 then none else some right))

def MST.splitAround (t : MST) (key : String) :
    Except String (Option MST × Option MST) :=
  splitAroundF t.size t key

/-- `MST::append_merge` (mod.rs:773-798).  Note the source joins
`to_merge_entries[0..1]` — the first (already merged) entry of the right
node — after the recursively merged boundary. -/
def appendMergeF : Nat → MST → MST → Except String MST
  | 0, _, _ => throw "recursion limit"
  | f + 1, l, r =>
    if l.getLayer ≠ r.getLayer then
      throw "Trying to merge two nodes from different layers of the MST"
    else
      let selfE := l.entries
      let mergeE := r.entries
      match selfE.getLast?, mergeE.head? with
      | some (.tree ll), some (.tree rr) => do
          let merged ← appendMergeF f ll rr
          pure (.mk (selfE.take (selfE.length - 1)
            ++ [NodeEntry.tree merged] ++ mergeE.take 1) (some l.getLayer))
      | _, _ => pure (.mk (selfE ++ mergeE) (some l.getLayer))

def MST.appendMerge (l r : MST) : Except String MST :=
  appendMergeF (l.size + r.size) l r

/-- `MST::delete_recurse` (mod.rs:587-622). -/
def deleteRecurseF : Nat → MST → String → Except String MST
  | 0, _, _ => throw "recursion limit"
  | f + 1, t, key =>
    let index := t.findGtOrEqualLeafIndex key
    let hit := match t.atIndex index with
      | some (.leaf k _) => k == key
      | _ => false
    if hit then
      match t.atPrevIndex index, t.atIndex (index + 1) with
      | some (.tree p), some (.tree n) => do
          let merged ← p.appendMerge n
          pure (t.newTree (t.entries.take (index - 1)
            ++ [NodeEntry.tree merged] ++ t.entries.drop (index + 2)))
      | _, _ => pure (t.removeEntry index)
    else
      match t.atPrevIndex index with
      | some (.tree p) => do
          let sub ← deleteRecurseF f p key
          if sub.entries.length = 0 then pure (t.removeEntry (index - 1))
          else pure (t.updateEntry (index - 1) (NodeEntry.tree sub))
      | _ => throw ("Could not find a record with key: " ++ key)

def MST.deleteRecurse (t : MST) (key : String) : Except String MST :=
  deleteRecurseF t.size t key

/-- `MST::delete` (mod.rs:582-585): delete recursively, then trim the top. -/
def MST.delete (t : MST) (key : String) : Except String MST :=
  (t.deleteRecurse key).map MST.trimTop

/-- Modelled from the spec: `util::ensure_valid_mst_key` — "Reject if `key` is
empty, >256 bytes, or contains invalid characters"; the character set is the
rkey alphabet `[A-Za-z0-9_~.:-]` plus the `/` separator (§3). -/
def isValidMstKey (key : String) : Bool :=
  key.length > 0 && key.length ≤ 256 &&
    key.data.all fun c =>
      c.isAlphanum || c = '_' || c = '~' || c = '.' || c = ':' || c = '-' || c = '/'

/-- The `for _ in 1..extra_layers_to_add` loop of `MST::add`: wrap each half
in `n` single-subtree parent layers. -/
def wrapParents : Nat → Option MST → Option MST →
    Except String (Option MST × Option MST)
  | 0, l, r => pure (l, r)
  | n + 1, l, r => do
    let l' ← match l with
      | some l => do pure (some (← l.createParent))
      | none => pure none
    let r' ← match r with
      | some r => do pure (some (← r.createParent))
      | none => pure none
    wrapParents n l' r'

/-- `MST::add` (mod.rs:450-538). -/
def addF : Nat → MST → String → MstCid → Option Nat → Except String MST
  | 0, _, _, _, _ => throw "recursion limit"
  | f + 1, t, key, value, knownZeros => do
    if ¬ isValidMstKey key then throw ("Not a valid MST key: " ++ key)
    else do
    let kz := match knownZeros with
      | some z => z
      | none => keyZeros key
    let layer := t.getLayer
    -- `get_layer` caches the computed layer on `self`; later `new_tree` /
    -- `split_around` copies read the cached value
    let tc := MST.mk t.entries (some layer)
    if kz = layer then
      -- it belongs in this layer
      let index := tc.findGtOrEqualLeafIndex key
      let dup := match tc.atIndex index with
        | some (.leaf k _) => k == key
        | _ => false
      if dup then throw ("There is already a value at key: " ++ key)
      else match tc.atPrevIndex index with
      | some (NodeEntry.tree m) => do
          let (s0, s1) ← m.splitAround key
          pure (tc.replaceWithSplit (index - 1) s0 key value s1)
      | _ => pure (tc.spliceIn (NodeEntry.leaf key value) index)
    else if kz < layer then
      -- it belongs on a lower layer
      let index := tc.findGtOrEqualLeafIndex key
      match tc.atPrevIndex index with
      | some (NodeEntry.tree p) => do
          let newSubtree ← addF f p key value (some kz)
          pure (tc.updateEntry (index - 1) (NodeEntry.tree newSubtree))
      | _ => do
          let subTree ← tc.createChild
          let newSubTree ← addF f subTree key value (some kz)
          pure (tc.spliceIn (NodeEntry.tree newSubTree) index)
    else do
      -- it belongs on a higher layer: split and push the tree down
      let (s0, s1) ← tc.splitAround key
      let extra := kz - layer
      let (l, r) ← wrapParents (extra - 1) s0 s1
      let updated := (match l with | some l => [NodeEntry.tree l] | none => [])
        ++ [NodeEntry.leaf key value]
        ++ (match r with | some r => [NodeEntry.tree r] | none => [])
      createChecked updated (some kz)

def MST.add (t : MST) (key : String) (value : MstCid) (knownZeros : Option Nat) :
    Except String MST :=
  addF (t.size + t.getLayer + keyZeros key + 2) t key value knownZeros

/-- Insert a list of pairs left to right (`known_zeros = None`, as the repo's
callers pass). -/
def mstAddAll : List (String × MstCid) → MST → Except String MST
  | [], t => pure t
  | (k, v) :: rest, t => do mstAddAll rest (← t.add k v none)

def exceptIsOk : Except ε α → Bool
  | .ok _ => true
  | .error _ => false

/-! ### Bits, base32, base64

`Cid::to_string`/`Cid::try_from` (the `cid` crate) and the `base64` crate's
STANDARD engine are external; they are modelled from the spec (§3: canonical
CID text is `b` + unpadded lower-case base32 of the binary form; bytes are
`$bytes` with standard base64).  Bytes are `Nat`s below 256. -/

def toBits8 (n : Nat) : List Bool :=
  [n.testBit 7, n.testBit 6, n.testBit 5, n.testBit 4,
   n.testBit 3, n.testBit 2, n.testBit 1, n.testBit 0]

def toBits6 (n : Nat) : List Bool :=
  [n.testBit 5, n.testBit 4, n.testBit 3, n.testBit 2, n.testBit 1, n.testBit 0]

def toBits5 (n : Nat) : List Bool :=
  [n.testBit 4, n.testBit 3, n.testBit 2, n.testBit 1, n.testBit 0]

def bitsToNat (l : List Bool) : Nat :=
  l.foldl (fun a b => 2 * a + cond b 1 0) 0

def group8 : List Bool → List (List Bool)
  | b1 :: b2 :: b3 :: b4 :: b5 :: b6 :: b7 :: b8 :: rest =>
      [b1, b2, b3, b4, b5, b6, b7, b8] :: group8 rest
  | _ => []

def group6 : List Bool → List (List Bool)
  | b1 :: b2 :: b3 :: b4 :: b5 :: b6 :: rest =>
      [b1, b2, b3, b4, b5, b6] :: group6 rest
  | _ => []

def group5 : List Bool → List (List Bool)
  | b1 :: b2 :: b3 :: b4 :: b5 :: rest => [b1, b2, b3, b4, b5] :: group5 rest
  | _ => []

/-- Pad a bit list with zero bits to a multiple of `n`. -/
def padBits (n : Nat) (l : List Bool) : List Bool :=
  l ++ List.replicate ((n - l.length % n) % n) false

/-- The RFC 4648 base32 lower-case alphabet, as value → char. -/
def b32char (v : Nat) : Char :=
  (("abcdefghijklmnopqrstuvwxyz234567".data).getD v 'a')

/-- Char → value for the base32 lower-case alphabet. -/
def b32val (c : Char) : Option Nat :=
  let n := c.toNat
  if 97 ≤ n && n ≤ 122 then some (n - 97)
  else if 50 ≤ n && n ≤ 55 then some (n - 50 + 26)
  else none

/-- Unpadded lower-case base32 of a byte list. -/
def b32encode (bytes : List Nat) : List Char :=
  (group5 (padBits 5 (bytes.flatMap toBits8))).map fun g => b32char (bitsToNat g)

/-- Decode unpadded lower-case base32 to bytes (trailing partial bits are
dropped). -/
def b32decode (chars : List Char) : Option (List Nat) :=
  (chars.mapM b32val).map fun vals =>
    (group8 (vals.flatMap toBits5)).map bitsToNat

/-- The standard base64 alphabet, as value → char. -/
def b64char (v : Nat) : Char :=
  (("ABCDEFGHIJKLMNOPQRSTUVWXYZabcdefghijklmnopqrstuvwxyz0123456789+/".data).getD v 'A')

/-- Char → value for the standard base64 alphabet. -/
def b64val (c : Char) : Option Nat :=
  let n := c.toNat
  if 65 ≤ n && n ≤ 90 then some (n - 65)
  else if 97 ≤ n && n ≤ 122 then some (n - 97 + 26)
  else if 48 ≤ n && n ≤ 57 then some (n - 48 + 52)
  else if n = 43 then some 62
  else if n = 47 then some 63
  else none

/-- Standard (padded) base64 of a byte list. -/
def b64encode (bytes : List Nat) : String :=
  let cs := (group6 (padBits 6 (bytes.flatMap toBits8))).map fun g => b64char (bitsToNat g)
  String.mk (cs ++ List.replicate ((4 - cs.length % 4) % 4) '=')

/-- Count of trailing `'='` characters. -/
def countTrailingEq (cs : List Char) : Nat :=
  (cs.reverse.takeWhile fun c => c == '=').length

/-- Decode standard (padded) base64.  Length must be a multiple of four, with
at most two trailing padding chars and none elsewhere. -/
def b64decode (s : String) : Option (List Nat) :=
  let cs := s.data
  if cs.length % 4 ≠ 0 then none
  else
    let padn := countTrailingEq cs
    if padn > 2 then none
    else
      let body := cs.take (cs.length - padn)
      if body.any (fun c => c == '=') then none
      else
        (body.mapM b64val).map fun vals =>
          (group8 (vals.flatMap toBits6)).map bitsToNat

/-! ### CID (modelled from the spec, §3)

"CID. Self-describing content identifier: version=1,
codec ∈ {DAG-CBOR=0x71, raw=0x55}, multihash(SHA-256, 32 bytes).  Canonical
textual form is base32 lower-case without padding, prefixed `b`." -/

structure Cid where
  codec : Nat
  digest : List Nat
deriving DecidableEq

/-- Binary form: version 1, codec (single-byte varint), multihash code
sha2-256 (0x12), digest length 32, digest bytes. -/
def Cid.bytes (c : Cid) : List Nat := 1 :: c.codec :: 18 :: 32 :: c.digest

/-- A CID as produced by parsing: DAG-CBOR or raw codec, 32 digest bytes. -/
def Cid.wf (c : Cid) : Bool :=
  (c.codec == 113 || c.codec == 85) && c.digest.length == 32
    && c.digest.all fun b => b < 256

/-- `Cid::to_string` (modelled from the spec): canonical text. -/
def cidToString (c : Cid) : String := String.mk ('b' :: b32encode c.bytes)

/-- `Cid::try_from(&str)` (modelled from the spec): parse canonical text. -/
def cidFromString (s : String) : Option Cid :=
  match s.data with
  | 'b' :: rest =>
    match b32decode rest with
    | some (1 :: codec :: 18 :: 32 :: digest) =>
        if (codec == 113 || codec == 85) && digest.length == 32 then
          some ⟨codec, digest⟩
        else none
    | _ => none
  | _ => none

/-! ### JSON and the IPLD value model (`rsky-common-web/src/ipld.rs`)

`serde_json::Value` is embedded as `Json`; objects are association lists
looked up by key (`serde_json`'s map is keyed, duplicate-free; iteration
order is not observable through the conversions).  JSON numbers pass through
`f64` in the source; the protocol forbids floats in records and all numbers
here are modelled as integers, on which the `f64` round-trip is the
identity. -/

inductive Json where
  | null
  | bool (b : Bool)
  | num (n : Int)
  | str (s : String)
  | arr (items : List Json)
  | obj (fields : List (String × Json))

mutual

/-- `IpldValue` (ipld.rs): objects are association lists, bytes are byte
lists, numbers are integers (see above). -/
inductive IpldValue where
  | bool (b : Bool)
  | num (n : Int)
  | str (s : String)
  | null
  | arr (items : List IpldValue)
  | obj (fields : IpldMap)
  | cid (c : Cid)
  | bytes (bs : List Nat)

/-- The entry list of an `IpldValue` object (`HashMap<String, IpldValue>`). -/
inductive IpldMap where
  | nil
  | cons (key : String) (value : IpldValue) (rest : IpldMap)

end

/-- `HashMap::get`. -/
def IpldMap.lookup : IpldMap → String → Option IpldValue
  | .nil, _ => none
  | .cons k v rest, key => if k == key then some v else rest.lookup key

/-- `HashMap::len`. -/
def IpldMap.length : IpldMap → Nat
  | .nil => 0
  | .cons _ _ rest => rest.length + 1

mutual

/-- `impl From<Value> for IpldValue` (ipld.rs:32-75): strings that parse as
CIDs become `Cid`; single-key `$link`/`$bytes` objects become `Cid`/`Bytes`;
everything else converts structurally. -/
def ipldFromJson : Json → IpldValue
  | .null => .null
  | .bool b => .bool b
  | .num n => .num n
  | .str s =>
    match cidFromString s with
    | some c => .cid c
    | none => .str s
  | .arr items => .arr (ipldFromJsonList items)
  | .obj fields =>
    if fields.length == 1 then
      match (match fields.lookup "$link" with
             | some (.str link) => cidFromString link
             | _ => none) with
      | some c => .cid c
      | none =>
        match fields.lookup "$bytes" with
        | some (.str bs) =>
          (match b64decode bs with
           | some decoded => .bytes decoded
           | none => .obj (ipldFromJsonMap fields))
        | _ => .obj (ipldFromJsonMap fields)
    else .obj (ipldFromJsonMap fields)

def ipldFromJsonList : List Json → List IpldValue
  | [] => []
  | j :: rest => ipldFromJson j :: ipldFromJsonList rest

def ipldFromJsonMap : List (String × Json) → IpldMap
  | [] => .nil
  | (k, v) :: rest => .cons k (ipldFromJson v) (ipldFromJsonMap rest)

end

mutual

/-- `impl From<IpldValue> for Value` (ipld.rs:78-111): `Cid` becomes a
`{"$link": text}` object, `Bytes` a `{"$bytes": base64}` object. -/
def jsonFromIpld : IpldValue → Json
  | .null => .null
  | .bool b => .bool b
  | .num n => .num n
  | .str s => .str s
  | .arr items => .arr (jsonFromIpldList items)
  | .obj fields => .obj (jsonFromIpldMap fields)
  | .cid c => .obj [("$link", .str (cidToString c))]
  | .bytes bs => .obj [("$bytes", .str (b64encode bs))]

def jsonFromIpldList : List IpldValue → List Json
  | [] => []
  | v :: rest => jsonFromIpld v :: jsonFromIpldList rest

def jsonFromIpldMap : IpldMap → List (String × Json)
  | .nil => []
  | .cons k v rest => (k, jsonFromIpld v) :: jsonFromIpldMap rest

end

/-! ### Blob references (`rsky-lexicon/src/blob_refs.rs`) -/

inductive BlobRefError where
  | invalidFormat
  | invalidCid
  | missingField (f : String)
deriving DecidableEq

structure TypedJsonBlobRef where
  typeName : String
  refCid : Cid
  mimeType : String
  size : Int
deriving DecidableEq

structure UntypedJsonBlobRef where
  cid : String
  mimeType : String
deriving DecidableEq

inductive JsonBlobRef where
  | typed (t : TypedJsonBlobRef)
  | untyped (u : UntypedJsonBlobRef)
deriving DecidableEq

/-- `BlobRef` (blob_refs.rs:82-88): `ref_` is `refCid` here, `type_` is
`typeName`. -/
structure BlobRef where
  refCid : Cid
  mimeType : String
  size : Int
  original : JsonBlobRef
deriving DecidableEq

/-- `BlobRef::new`. -/
def BlobRef.new (refCid : Cid) (mimeType : String) (size : Int) : BlobRef :=
  { refCid, mimeType, size,
    original := .typed ⟨"blob", refCid, mimeType, size⟩ }

/-- `impl TryFrom<JsonBlobRef> for BlobRef` (blob_refs.rs:108-130): an
untyped reference parses its CID string and gets the sentinel size `-1`. -/
def blobRefFromJsonRef : JsonBlobRef → Except BlobRefError BlobRef
  | .typed t => .ok { refCid := t.refCid, mimeType := t.mimeType,
                      size := t.size, original := .typed t }
  | .untyped u =>
    match cidFromString u.cid with
    | some c => .ok { refCid := c, mimeType := u.mimeType, size := -1,
                      original := .untyped u }
    | none => .error .invalidCid

/-- The tail of the typed path of `TryFrom<&HashMap<String, IpldValue>>`
(blob_refs.rs:156-166): `mimeType` then `size`, then `BlobRef::new`. -/
def blobRefTyped (value : IpldMap) (refCid : Cid) : Except BlobRefError BlobRef :=
  match value.lookup "mimeType" with
  | some (.str mime) =>
    (match value.lookup "size" with
     | some (.num n) => .ok (BlobRef.new refCid mime n)
     | _ => .error (.missingField "size"))
  | _ => .error (.missingField "mimeType")

/-- The untyped path of `TryFrom<&HashMap<String, IpldValue>>`
(blob_refs.rs:170-180): string `cid` and `mimeType` fields, else
`InvalidFormat`. -/
def blobRefUntypedPath (value : IpldMap) : Except BlobRefError BlobRef :=
  match value.lookup "cid", value.lookup "mimeType" with
  | some (.str cid), some (.str mime) =>
      blobRefFromJsonRef (.untyped ⟨cid, mime⟩)
  | _, _ => .error .invalidFormat

/-- `impl TryFrom<&HashMap<String, IpldValue>> for BlobRef`
(blob_refs.rs:143-182): a `$type: "blob"` map takes the typed path; otherwise
string `cid` and `mimeType` fields take the untyped path. -/
def blobRefFromMap (value : IpldMap) : Except BlobRefError BlobRef :=
  match value.lookup "$type" with
  | some (.str typeName) =>
    if typeName == "blob" then
      match value.lookup "ref" with
      | some (.str s) =>
        (match cidFromString s with
         | some c => blobRefTyped value c
         | none => .error .invalidCid)
      | some (.cid c) => blobRefTyped value c
      | _ => .error (.missingField "ref")
    else blobRefUntypedPath value
  | _ => blobRefUntypedPath value

/-! ### LexValue (`rsky-lexicon/src/serialize.rs`) -/

mutual

inductive LexValue where
  | ipld (v : IpldValue)
  | blob (b : BlobRef)
  | arr (items : List LexValue)
  | obj (fields : LexMap)

inductive LexMap where
  | nil
  | cons (key : String) (value : LexValue) (rest : LexMap)

end

/-- `Value::as_str`. -/
def Json.asStr : Json → Option String
  | .str s => some s
  | _ => none

/-- `Value::as_i64` (integral numbers; see the float note above). -/
def Json.asInt : Json → Option Int
  | .num n => some n
  | _ => none

/-- The blob-shape check of `impl From<&serde_json::Value> for LexValue`
(serialize.rs:152-172): `$type` equal to the JSON string `"blob"`, with
`ref`/`mimeType`/`size` fields of the right shapes and a parsing CID. -/
def lexBlobCheck (fields : List (String × Json)) : Option BlobRef :=
  match fields.lookup "$type" with
  | some (.str t) =>
    if t == "blob" then
      match fields.lookup "ref", fields.lookup "mimeType", fields.lookup "size" with
      | some rv, some mv, some sv =>
        (match rv.asStr, mv.asStr, sv.asInt with
         | some rs, some ms, some sn =>
           (match cidFromString rs with
            | some c => some (BlobRef.new c ms sn)
            | none => none)
         | _, _, _ => none)
      | _, _, _ => none
    else none
  | _ => none

mutual

/-- `impl From<&serde_json::Value> for LexValue` (serialize.rs:134-192): a
bare string parsing as a CID becomes `Ipld(Cid)`; objects are checked for the
blob shape, then the single-key `$link` shape, then convert as maps. -/
def lexFromJson : Json → LexValue
  | .null => .ipld .null
  | .bool b => .ipld (.bool b)
  | .num n => .ipld (.num n)
  | .str s =>
    match cidFromString s with
    | some c => .ipld (.cid c)
    | none => .ipld (.str s)
  | .arr items => .arr (lexFromJsonList items)
  | .obj fields =>
    match lexBlobCheck fields with
    | some b => .blob b
    | none =>
      if fields.length == 1 then
        match fields.lookup "$link" with
        | some (.str link) =>
          (match cidFromString link with
           | some c => .ipld (.cid c)
           | none => .obj (lexFromJsonMap fields))
        | _ => .obj (lexFromJsonMap fields)
      else .obj (lexFromJsonMap fields)

def lexFromJsonList : List Json → List LexValue
  | [] => []
  | j :: rest => lexFromJson j :: lexFromJsonList rest

def lexFromJsonMap : List (String × Json) → LexMap
  | [] => .nil
  | (k, v) :: rest => .cons k (lexFromJson v) (lexFromJsonMap rest)

end

/-! ### Fixtures and statement-level observers

The three record keys below have the SHA-256 layers marked (provable here by
`decide` through the embedded SHA-256):
`keyA`, `keyB` at layer 0 and `keyC` at layer 1, with
`keyA < keyB < keyC` bytewise. -/

def keyA : String := "com.example.record/k00000"
def keyB : String := "com.example.record/k00001"
def keyC : String := "com.example.record/k00073"

/-- The tree obtained by `add(keyC, val 3)` then `add(keyA, val 1)` on the
empty MST (proved below): a layer-0 subtree holding `keyA` to the left of the
layer-1 leaf `keyC`. -/
def mstT2 : MST :=
  .mk [.tree (.mk [.leaf keyA (.val 1)] (some 0)), .leaf keyC (.val 3)] (some 1)

/-- What the duplicate `add(keyC, val 9)` on `mstT2` actually returns. -/
def mstT2dup : MST :=
  .mk [.leaf keyC (.val 9), .tree (.mk [.leaf keyA (.val 1)] (some 0)),
       .leaf keyC (.val 3)] (some 1)

def ordABC : List (String × MstCid) := [(keyA, .val 1), (keyB, .val 2), (keyC, .val 3)]
def ordCAB : List (String × MstCid) := [(keyC, .val 3), (keyA, .val 1), (keyB, .val 2)]

def splitKey : String := "com.example.record/b"

/-- A hydrated two-layer node: a layer-0 subtree with keys `.../a`, `.../abb`
left of the layer-1 leaf `.../c`. -/
def splitNode : MST :=
  .mk [.tree (.mk [.leaf "com.example.record/a" (.val 1),
                   .leaf "com.example.record/abb" (.val 2)] (some 0)),
       .leaf "com.example.record/c" (.val 3)] (some 1)

/-- What `split_around(splitKey)` actually returns as the right partition:
the whole node. -/
def splitRightActual : MST :=
  .mk [.tree (.mk [.leaf "com.example.record/a" (.val 1),
                   .leaf "com.example.record/abb" (.val 2)] (some 0)),
       .leaf "com.example.record/c" (.val 3)] (some 1)

/-- Left operand for `append_merge`: leaf `.../a`, then a subtree holding
`.../b`. -/
def mergeLeft : MST :=
  .mk [.leaf "com.example.record/a" (.val 1),
       .tree (.mk [.leaf "com.example.record/b" (.val 2)] (some 0))] (some 1)

/-- Right operand for `append_merge`: a subtree holding `.../c`, then leaf
`.../d`; every key is greater than every key of `mergeLeft`. -/
def mergeRight : MST :=
  .mk [.tree (.mk [.leaf "com.example.record/c" (.val 3)] (some 0)),
       .leaf "com.example.record/d" (.val 4)] (some 1)

/-- What `mergeLeft.append_merge(mergeRight)` actually returns. -/
def mergedActual : MST :=
  .mk [.leaf "com.example.record/a" (.val 1),
       .tree (.mk [.leaf "com.example.record/b" (.val 2),
                   .leaf "com.example.record/c" (.val 3)] (some 0)),
       .tree (.mk [.leaf "com.example.record/c" (.val 3)] (some 0))] (some 1)

/-- Whether a node's entry list is a single subtree and nothing else. -/
def isSingleSubtree : List NodeEntry → Bool
  | [NodeEntry.tree _] => true
  | _ => false

def bafyCidStr : String := "bafyreie5737gdxlw5i64vxljttuk6tp6h6kcgvqicxr2xg7j6fpd6k4dii"

/-- The parse of `bafyCidStr`: DAG-CBOR codec and its 32 digest bytes. -/
def bafyCid : Cid :=
  ⟨113, [157, 254, 254, 97, 221, 118, 234, 61, 202, 221, 105, 156, 232, 175,
         77, 254, 63, 148, 35, 86, 8, 21, 227, 171, 155, 233, 241, 94, 63,
         43, 131, 66]⟩

/-- The single-entry object shapes that DAG-JSON reserves: `{"$link": s}`
with `s` parsing as a CID, or `{"$bytes": s}` with `s` decoding as base64. -/
def isLinkBytesShape : IpldMap → Bool
  | .cons k (.str s) .nil =>
      (k == "$link" && (cidFromString s).isSome)
        || (k == "$bytes" && (b64decode s).isSome)
  | _ => false

mutual

/-- Values on which the DAG-JSON projection is unambiguous: no string that
parses as a CID, CIDs well-formed, bytes in range, and no plain object of a
reserved single-key `$link`/`$bytes` shape. -/
def goodIpld : IpldValue → Bool
  | .null => true
  | .bool _ => true
  | .num _ => true
  | .str s => (cidFromString s).isNone
  | .cid c => c.wf
  | .bytes bs => bs.all fun b => b < 256
  | .arr items => goodIpldList items
  | .obj fields => !(isLinkBytesShape fields) && goodIpldMap fields

def goodIpldList : List IpldValue → Bool
  | [] => true
  | v :: rest => goodIpld v && goodIpldList rest

def goodIpldMap : IpldMap → Bool
  | .nil => true
  | .cons _ v rest => goodIpld v && goodIpldMap rest

end

/-- A JSON object with the single key `$bytes` mapped to a decodable base64
string: the IPLD value `.obj {"$bytes": ""}` serializes to exactly this shape,
which the decoder then reads back as a `bytes` value. -/
def badBytesObj : IpldValue := .obj (.cons "$bytes" (.str "") .nil)

/-- A representative well-behaved IPLD value: an object holding a CID link, a
byte string, a text string that is not CID-shaped, and a mixed array. -/
def goodSample : IpldValue :=
  .obj (.cons "cid" (.cid bafyCid)
    (.cons "data" (.bytes [1, 2, 3])
      (.cons "name" (.str "hello")
        (.cons "items" (.arr [.num 42, .null, .bool true]) .nil))))

/-- An IPLD map with string `cid` and `mimeType` fields and no `$type`. -/
def blobMapW : IpldMap :=
  .cons "cid" (.str bafyCidStr) (.cons "mimeType" (.str "image/jpeg") .nil)

/-! ## Theorems -/

/-- C1: For every sequence of valid, distinct (key, cid) pairs inserted into
an empty MST via `add`, `get` of an inserted key should return its value.
The code violates this: inserting `keyC` (layer 1) then `keyA` (layer 0,
`keyA < keyC`) yields `mstT2`, whose in-order leaf keys are
`[keyA, keyC]` — yet `get(keyC)` returns `None`, because
`find_gt_or_equal_leaf_index` returns an index among the node's leaves only,
which the callers then use as an index into the full entry list. -/
theorem mst_get_misses_inserted_key :
    (do let t1 ← emptyMst.add keyC (MstCid.val 3) none
        t1.add keyA (MstCid.val 1) none) = Except.ok mstT2
    ∧ mstT2.keys = [keyA, keyC]
    ∧ mstT2.get keyC = Except.ok none :=
  ⟨rfl, rfl, rfl⟩

/-- C2: Inserting the same set of pairs in two different orders should yield
equal root CIDs.  The code violates this: `[keyA, keyB, keyC]` builds a
well-formed tree with a computable root CID, while `[keyC, keyA, keyB]`
builds a node with two adjacent subtrees, whose root CID computation fails —
the two root-CID results differ. -/
theorem mst_insertion_order_changes_root :
    exceptIsOk (mstAddAll ordABC emptyMst) = true
    ∧ exceptIsOk (mstAddAll ordCAB emptyMst) = true
    ∧ (mstAddAll ordABC emptyMst).bind MST.getPointer
        ≠ (mstAddAll ordCAB emptyMst).bind MST.getPointer := by
  refine ⟨rfl, rfl, fun h => ?_⟩
  have h2 := congrArg exceptIsOk h
  rw [show exceptIsOk ((mstAddAll ordABC emptyMst).bind MST.getPointer) = true
        from rfl,
      show exceptIsOk ((mstAddAll ordCAB emptyMst).bind MST.getPointer) = false
        from rfl] at h2
  exact Bool.noConfusion h2

/-- C3: `add` should fail when the key is already bound.  The code violates
this: `mstT2` binds `keyC`, yet a second `add(keyC)` succeeds and splices a
duplicate leaf in front, because the duplicate check looks at the entry at a
leaves-only index. -/
theorem mst_duplicate_add_not_rejected :
    mstT2.keys = [keyA, keyC]
    ∧ mstT2.add keyC (MstCid.val 9) none = Except.ok mstT2dup
    ∧ mstT2dup.keys = [keyC, keyA, keyC] :=
  ⟨rfl, rfl, rfl⟩

/-- C4: `split_around(k)` should put exactly the keys `< k` left and the
keys `≥ k` right.  The code violates this: splitting `splitNode` around
`splitKey` returns an empty left partition and the whole node as the right
partition, although the key `.../a` inside that right partition is smaller
than `splitKey`. -/
theorem mst_split_around_misplaces_keys :
    splitNode.splitAround splitKey = Except.ok (none, some splitRightActual)
    ∧ splitRightActual.keys =
        ["com.example.record/a", "com.example.record/abb", "com.example.record/c"]
    ∧ strLe splitKey "com.example.record/a" = false :=
  ⟨rfl, rfl, rfl⟩

/-- C5: `append_merge` of two same-layer nodes, all keys of the right one
greater, should concatenate the leaves (merging boundary subtrees).  The code
violates this: the merge of `mergeLeft` (leaves `a`, `b`) and `mergeRight`
(leaves `c`, `d`) yields leaves `[a, b, c, c]` — the right node's boundary
subtree is kept a second time next to the merged subtree and its remaining
leaf `d` is dropped.  Merging nodes at different layers errors, as claimed. -/
theorem mst_append_merge_drops_leaves :
    mergeLeft.appendMerge mergeRight = Except.ok mergedActual
    ∧ mergedActual.keys =
        ["com.example.record/a", "com.example.record/b",
         "com.example.record/c", "com.example.record/c"]
    ∧ mergeLeft.keys ++ mergeRight.keys =
        ["com.example.record/a", "com.example.record/b",
         "com.example.record/c", "com.example.record/d"]
    ∧ exceptIsOk (mergeLeft.appendMerge
        (.mk [.leaf "com.example.record/c" (.val 3)] (some 0))) = false :=
  ⟨rfl, rfl, rfl, rfl⟩

/-- C9: only the explicit `{"$link": ...}` object form should decode to the
`Cid` variant; a bare JSON string that happens to parse as a CID must stay a
string.  Both JSON decoders in the source auto-promote it: `bafyCidStr`
parses as `bafyCid`, and both `From<Value> for IpldValue` and
`From<&Value> for LexValue` turn the bare string into the `Cid` variant. -/
theorem ipld_bare_cid_string_promoted :
    cidFromString bafyCidStr = some bafyCid
    ∧ ipldFromJson (Json.str bafyCidStr) = IpldValue.cid bafyCid
    ∧ lexFromJson (Json.str bafyCidStr) = LexValue.ipld (IpldValue.cid bafyCid) :=
  ⟨by decide, rfl, rfl⟩

/-- `trim_top` never returns a node that is a single subtree: it either
recurses on exactly that shape or returns a node of a different shape. -/
theorem trimTop_not_single : ∀ t : MST, isSingleSubtree t.trimTop.entries = false
  | .mk [NodeEntry.tree n] _ => trimTop_not_single n
  | .mk [] _ => rfl
  | .mk [NodeEntry.leaf _ _] _ => rfl
  | .mk (NodeEntry.leaf _ _ :: _ :: _) _ => rfl
  | .mk (NodeEntry.tree _ :: _ :: _) _ => rfl

/-- C6: whenever `delete` returns a tree, that tree's root is not a single
subtree entry with no leaves: `delete` runs `delete_recurse` and then
`trim_top`, which trims repeatedly until the root has more than one entry or
is not a subtree. -/
theorem mst_delete_trims_top (t t' : MST) (key : String)
    (h : t.delete key = Except.ok t') :
    isSingleSubtree t'.entries = false := by
  unfold MST.delete at h
  cases hd : t.deleteRecurse key with
  | error e => rw [hd] at h; exact Except.noConfusion h
  | ok u =>
    rw [hd] at h
    have hu : u.trimTop = t' := by
      simpa [Except.map] using h
    rw [← hu]
    exact trimTop_not_single u

/-- Witness for C6: deleting `keyA` from a two-leaf node returns the
remaining single-leaf node, which is not a single-subtree root. -/
theorem mst_delete_trims_top_witness :
    MST.delete (.mk [.leaf keyA (.val 1), .leaf keyB (.val 2)] (some 0)) keyA
      = Except.ok (.mk [.leaf keyB (.val 2)] (some 0))
    ∧ isSingleSubtree (MST.mk [.leaf keyB (.val 2)] (some 0)).entries = false :=
  ⟨rfl, mst_delete_trims_top
    (.mk [.leaf keyA (.val 1), .leaf keyB (.val 2)] (some 0))
    (.mk [.leaf keyB (.val 2)] (some 0)) keyA rfl⟩

/-! ### Helper lemmas for the MST theorems -/

theorem except_bind_ok_iff {γ δ : Type} {x : Except String γ}
    {g : γ → Except String δ} {b : δ} :
    (x >>= g) = .ok b ↔ ∃ a, x = .ok a ∧ g a = .ok b := by
  cases x <;> simp [Bind.bind, Except.bind]

theorem except_pure_ok_iff {γ : Type} {a b : γ} :
    (pure a : Except String γ) = .ok b ↔ a = b := by
  simp [pure, Except.pure]

theorem leavesGo_eq (t : MST) : t.leavesGo = entriesLeaves t.entries := by
  cases t
  rfl

theorem entriesLeaves_append (a b : List NodeEntry) :
    entriesLeaves (a ++ b) = entriesLeaves a ++ entriesLeaves b := by
  induction a with
  | nil => simp [entriesLeaves]
  | cons e rest ih =>
    cases e with
    | leaf k v => simp [entriesLeaves, ih]
    | tree m => simp [entriesLeaves, ih]

theorem entriesKeys_append (a b : List NodeEntry) :
    entriesKeys (a ++ b) = entriesKeys a ++ entriesKeys b := by
  simp [entriesKeys, entriesLeaves_append]

theorem entriesKeys_cons_leaf (k : String) (v : MstCid) (rest : List NodeEntry) :
    entriesKeys (NodeEntry.leaf k v :: rest) = k :: entriesKeys rest := rfl

theorem entriesKeys_cons_tree (m : MST) (rest : List NodeEntry) :
    entriesKeys (NodeEntry.tree m :: rest) = m.keys ++ entriesKeys rest := by
  cases m
  simp [entriesKeys, entriesLeaves, MST.keys, MST.entries, MST.leavesGo]

theorem keys_eq_entriesKeys (t : MST) : t.keys = entriesKeys t.entries := rfl

theorem mem_keys_of_leaf_mem {es : List NodeEntry} {k : String} {v : MstCid}
    (h : NodeEntry.leaf k v ∈ es) : k ∈ entriesKeys es := by
  induction es with
  | nil => cases h
  | cons e rest ih =>
    rcases List.mem_cons.mp h with he | hrest
    · rw [← he, entriesKeys_cons_leaf]
      exact List.mem_cons_self k _
    · cases e with
      | leaf k' v' => rw [entriesKeys_cons_leaf]; exact List.mem_cons_of_mem _ (ih hrest)
      | tree m => rw [entriesKeys_cons_tree]; exact List.mem_append_right _ (ih hrest)

theorem mem_keys_of_tree_mem {es : List NodeEntry} {m : MST} {x : String}
    (hm : NodeEntry.tree m ∈ es) (hx : x ∈ m.keys) : x ∈ entriesKeys es := by
  induction es with
  | nil => cases hm
  | cons e rest ih =>
    rcases List.mem_cons.mp hm with he | hrest
    · rw [← he, entriesKeys_cons_tree]
      exact List.mem_append_left _ hx
    · cases e with
      | leaf k' v' => rw [entriesKeys_cons_leaf]; exact List.mem_cons_of_mem _ (ih hrest)
      | tree m' => rw [entriesKeys_cons_tree]; exact List.mem_append_right _ (ih hrest)

theorem mem_of_atIndex {t : MST} {i : Nat} {e : NodeEntry}
    (h : t.atIndex i = some e) : e ∈ t.entries :=
  List.get?_mem h

theorem mem_of_atPrevIndex {t : MST} {i : Nat} {e : NodeEntry}
    (h : t.atPrevIndex i = some e) : e ∈ t.entries := by
  unfold MST.atPrevIndex at h
  split at h
  · exact Option.noConfusion h
  · exact List.get?_mem h

theorem size_pos (t : MST) : 1 ≤ t.size := by
  cases t
  simp [MST.size]

theorem tree_mem_size_lt {es : List NodeEntry} {m : MST}
    (h : NodeEntry.tree m ∈ es) : m.size < entriesSize es := by
  induction es with
  | nil => cases h
  | cons e rest ih =>
    rcases List.mem_cons.mp h with he | hrest
    · rw [← he]
      simp [entriesSize]
      omega
    · cases e with
      | leaf k v => simp [entriesSize]; have := ih hrest; omega
      | tree m' => simp [entriesSize]; have := ih hrest; omega

/-- `get` only reports a value for a key that is a leaf key of the tree. -/
theorem getF_some_mem : ∀ (f : Nat) (t : MST) (key : String) (v : MstCid),
    getF f t key = .ok (some v) → key ∈ t.keys := by
  intro f
  induction f with
  | zero => intro t key v h; exact Except.noConfusion h
  | succ f ih =>
    intro t key v h
    unfold getF at h
    dsimp only at h
    split at h
    · next v' heq =>
      split at heq
      · next k v0 hAt =>
        split at heq
        · next hbeq =>
          rw [keys_eq_entriesKeys]
          have hk : k = key := by simpa using hbeq
          exact hk ▸ mem_keys_of_leaf_mem (mem_of_atIndex hAt)
        · exact Option.noConfusion heq
      · exact Option.noConfusion heq
    · split at h
      · next p hprev =>
        rw [keys_eq_entriesKeys]
        exact mem_keys_of_tree_mem (mem_of_atPrevIndex hprev) (ih p key v h)
      · simp [except_pure_ok_iff] at h

/-- With fuel at least the tree size, `get` always completes. -/
theorem getF_isOk : ∀ (f : Nat) (t : MST) (key : String), t.size ≤ f →
    ∃ r, getF f t key = .ok r := by
  intro f
  induction f with
  | zero => intro t key hf; have := size_pos t; omega
  | succ f ih =>
    intro t key hf
    unfold getF
    dsimp only
    split
    · exact ⟨_, rfl⟩
    · split
      · next p hprev =>
        apply ih
        have h1 : p.size < entriesSize t.entries := tree_mem_size_lt (mem_of_atPrevIndex hprev)
        have h2 : t.size = 1 + entriesSize t.entries := by cases t; rfl
        omega
      · exact ⟨_, rfl⟩

theorem key_mem_spliceIn (t : MST) (key : String) (v : MstCid) (i : Nat) :
    key ∈ (t.spliceIn (.leaf key v) i).keys := by
  rw [keys_eq_entriesKeys]
  simp only [MST.spliceIn, MST.newTree, MST.entries, entriesKeys_append,
    entriesKeys_cons_leaf]
  simp

theorem key_mem_spliceIn_tree (t : MST) (sub : MST) (key : String) (i : Nat)
    (h : key ∈ sub.keys) : key ∈ (t.spliceIn (.tree sub) i).keys := by
  rw [keys_eq_entriesKeys]
  simp only [MST.spliceIn, MST.newTree, MST.entries, entriesKeys_append,
    entriesKeys_cons_tree]
  simp [h]

theorem key_mem_updateEntry_tree (t : MST) (sub : MST) (key : String) (i : Nat)
    (h : key ∈ sub.keys) : key ∈ (t.updateEntry i (.tree sub)).keys := by
  rw [keys_eq_entriesKeys]
  simp only [MST.updateEntry, MST.newTree, MST.entries, entriesKeys_append,
    entriesKeys_cons_tree]
  simp [h]

theorem key_mem_replaceWithSplit (t : MST) (i : Nat) (l : Option MST)
    (key : String) (value : MstCid) (r : Option MST) :
    key ∈ (t.replaceWithSplit i l key value r).keys := by
  rw [keys_eq_entriesKeys]
  cases l <;> cases r <;>
    simp [MST.replaceWithSplit, MST.newTree, MST.entries, entriesKeys_append,
      entriesKeys_cons_leaf, entriesKeys_cons_tree]

/-- Every successful `add` returns a tree in which the key occurs as a leaf
key. -/
theorem addF_mem_keys : ∀ (f : Nat) (t : MST) (key : String) (v : MstCid)
    (kz : Option Nat) (t' : MST),
    addF f t key v kz = .ok t' → key ∈ t'.keys := by
  intro f
  induction f with
  | zero => intro t key v kz t' h; exact Except.noConfusion h
  | succ f ih =>
    intro t key v kz t' h
    unfold addF at h
    dsimp only at h
    split at h
    · exact Except.noConfusion h
    · split at h
      · -- kz = layer: this-layer insertion
        split at h
        · exact Except.noConfusion h
        · split at h
          · -- previous entry is a subtree: split it and splice around the leaf
            rw [except_bind_ok_iff] at h
            obtain ⟨⟨s0, s1⟩, _, hp⟩ := h
            rw [except_pure_ok_iff] at hp
            rw [← hp]
            exact key_mem_replaceWithSplit _ _ _ _ _ _
          · rw [except_pure_ok_iff] at h
            rw [← h]
            exact key_mem_spliceIn _ _ _ _
      · split at h
        · -- kz < layer: recurse into or create the child
          split at h
          · next p _ =>
            rw [except_bind_ok_iff] at h
            obtain ⟨sub, hsub, hp⟩ := h
            rw [except_pure_ok_iff] at hp
            rw [← hp]
            exact key_mem_updateEntry_tree _ _ _ _ (ih _ _ _ _ _ hsub)
          · rw [except_bind_ok_iff] at h
            obtain ⟨child, _, h⟩ := h
            rw [except_bind_ok_iff] at h
            obtain ⟨sub, hsub, hp⟩ := h
            rw [except_pure_ok_iff] at hp
            rw [← hp]
            exact key_mem_spliceIn_tree _ _ _ _ (ih _ _ _ _ _ hsub)
        · -- kz > layer: split the root and rebuild above it
          rw [except_bind_ok_iff] at h
          obtain ⟨⟨s0, s1⟩, _, h⟩ := h
          dsimp only at h
          rw [except_bind_ok_iff] at h
          obtain ⟨⟨l, r⟩, _, h⟩ := h
          dsimp only at h
          unfold createChecked at h
          rw [except_bind_ok_iff] at h
          obtain ⟨_, _, hp⟩ := h
          rw [except_pure_ok_iff] at hp
          rw [← hp, keys_eq_entriesKeys]
          cases l <;> cases r <;>
            simp [MST.entries, entriesKeys_append, entriesKeys_cons_leaf,
              entriesKeys_cons_tree]

theorem cpl_nil (b : List Char) : commonPrefixLen [] b = 0 := by
  cases b <;> rfl

theorem cpl_take (a b : List Char) :
    a.take (commonPrefixLen a b) = b.take (commonPrefixLen a b) := by
  induction a generalizing b with
  | nil => simp [cpl_nil]
  | cons x xs ih =>
    cases b with
    | nil => rfl
    | cons y ys =>
      by_cases hxy : x = y
      · subst hxy
        simp [commonPrefixLen, ih ys]
      · simp [commonPrefixLen, hxy]

theorem take_cpl_append_drop (prev kd : List Char) :
    prev.take (commonPrefixLen prev kd) ++ kd.drop (commonPrefixLen prev kd) = kd := by
  rw [cpl_take]
  exact List.take_append_drop _ _

/-- Keys reconstructed from a successful serialization are exactly the
in-order leaf keys of the serialized entries. -/
theorem serKeys : ∀ f : Nat,
    (∀ es d, serNodeF f es = .ok d → dataKeysGo d = entriesKeys es)
    ∧ (∀ prev es tes, serTailF f prev es = .ok tes →
        dataTailKeys prev tes = entriesKeys es) := by
  intro f
  induction f with
  | zero =>
    exact ⟨fun es d h => Except.noConfusion h,
           fun prev es tes h => Except.noConfusion h⟩
  | succ f ih =>
    obtain ⟨ihNode, ihTail⟩ := ih
    constructor
    · intro es d h
      cases es with
      | nil =>
        simp only [serNodeF, except_pure_ok_iff] at h
        rw [← h]
        rfl
      | cons e rest =>
        cases e with
        | tree m =>
          cases m with
          | mk ces cly =>
            simp only [serNodeF] at h
            rw [except_bind_ok_iff] at h
            obtain ⟨dc, hdc, h⟩ := h
            rw [except_bind_ok_iff] at h
            obtain ⟨tes, htes, hp⟩ := h
            rw [except_pure_ok_iff] at hp
            rw [← hp]
            show dataKeysGo dc ++ dataTailKeys [] tes = _
            rw [ihNode _ _ hdc, ihTail _ _ _ htes, entriesKeys_cons_tree]
            rfl
        | leaf k v =>
          simp only [serNodeF] at h
          cases rest with
          | nil =>
            rw [except_bind_ok_iff] at h
            obtain ⟨tes, htes, hp⟩ := h
            rw [except_pure_ok_iff] at hp
            rw [← hp]
            simp only [dataKeysGo, dataTailKeys, cpl_nil, List.take_nil,
              List.drop_zero, List.nil_append]
            rw [ihTail _ _ _ htes, entriesKeys_cons_leaf]
          | cons e2 rest2 =>
            cases e2 with
            | tree m2 =>
              cases m2 with
              | mk ces2 cly2 =>
                rw [except_bind_ok_iff] at h
                obtain ⟨dc, hdc, h⟩ := h
                rw [except_bind_ok_iff] at h
                obtain ⟨tes, htes, hp⟩ := h
                rw [except_pure_ok_iff] at hp
                rw [← hp]
                simp only [dataKeysGo, dataTailKeys, cpl_nil, List.take_nil,
                  List.drop_zero, List.nil_append]
                rw [ihNode _ _ hdc, ihTail _ _ _ htes, entriesKeys_cons_leaf,
                  entriesKeys_cons_tree]
                rfl
            | leaf k2 v2 =>
              rw [except_bind_ok_iff] at h
              obtain ⟨tes, htes, hp⟩ := h
              rw [except_pure_ok_iff] at hp
              rw [← hp]
              simp only [dataKeysGo, dataTailKeys, cpl_nil, List.take_nil,
                List.drop_zero, List.nil_append]
              rw [ihTail _ _ _ htes, entriesKeys_cons_leaf]
              rfl
    · intro prev es tes h
      cases es with
      | nil =>
        simp only [serTailF, except_pure_ok_iff] at h
        rw [← h]
        rfl
      | cons e rest =>
        cases e with
        | tree m => exact Except.noConfusion h
        | leaf k v =>
          simp only [serTailF] at h
          cases rest with
          | nil =>
            rw [except_bind_ok_iff] at h
            obtain ⟨tes2, htes, hp⟩ := h
            rw [except_pure_ok_iff] at hp
            rw [← hp]
            simp only [dataTailKeys, take_cpl_append_drop, List.nil_append]
            rw [ihTail _ _ _ htes, entriesKeys_cons_leaf]
          | cons e2 rest2 =>
            cases e2 with
            | tree m2 =>
              cases m2 with
              | mk ces2 cly2 =>
                rw [except_bind_ok_iff] at h
                obtain ⟨dc, hdc, h⟩ := h
                rw [except_bind_ok_iff] at h
                obtain ⟨tes2, htes, hp⟩ := h
                rw [except_pure_ok_iff] at hp
                rw [← hp]
                simp only [dataTailKeys, take_cpl_append_drop]
                rw [ihNode _ _ hdc, ihTail _ _ _ htes, entriesKeys_cons_leaf,
                  entriesKeys_cons_tree]
                rfl
            | leaf k2 v2 =>
              rw [except_bind_ok_iff] at h
              obtain ⟨tes2, htes, hp⟩ := h
              rw [except_pure_ok_iff] at hp
              rw [← hp]
              simp only [dataTailKeys, take_cpl_append_drop, List.nil_append]
              rw [ihTail _ _ _ htes, entriesKeys_cons_leaf]
              rfl

/-- C7: MST mutation is non-destructive.  For every hydrated tree `t1` whose
root CID is computable, and every key not bound in `t1`: after
`t2 = t1.add(k, v)`, the original tree still satisfies `t1.get(k) = None`,
and the new tree's root CID is different — serialization reproduces exactly
the in-order leaf keys, `t2` contains `k`, `t1` does not, and CIDs of
distinct node data differ. -/
theorem mst_add_immutable (t1 t2 : MST) (key : String) (v : MstCid) (p1 : MstCid)
    (hnb : key ∉ t1.keys)
    (hadd : t1.add key v none = Except.ok t2)
    (hp1 : t1.getPointer = Except.ok p1) :
    t1.get key = Except.ok none ∧ t2.getPointer ≠ Except.ok p1 := by
  constructor
  · obtain ⟨r, hr⟩ := getF_isOk t1.size t1 key le_rfl
    cases r with
    | none => exact hr
    | some v' => exact absurd (getF_some_mem _ _ _ _ hr) hnb
  · intro hp2
    unfold MST.getPointer at hp1 hp2
    cases h1 : serializeNode t1.entries with
    | error e => rw [h1] at hp1; exact Except.noConfusion hp1
    | ok d1 =>
      rw [h1] at hp1
      simp only [Except.map] at hp1
      cases h2 : serializeNode t2.entries with
      | error e => rw [h2] at hp2; exact Except.noConfusion hp2
      | ok d2 =>
        rw [h2] at hp2
        simp only [Except.map] at hp2
        have hnode : MstCid.node d2 = MstCid.node d1 := by
          have e1 : MstCid.node d1 = p1 := by
            injection hp1
          have e2 : MstCid.node d2 = p1 := by
            injection hp2
          rw [e1, e2]
        have hd : d2 = d1 := by
          injection hnode
        have hk1 : dataKeysGo d1 = entriesKeys t1.entries := (serKeys _).1 _ _ h1
        have hk2 : dataKeysGo d2 = entriesKeys t2.entries := (serKeys _).1 _ _ h2
        have hmem : key ∈ entriesKeys t2.entries := by
          rw [← keys_eq_entriesKeys]
          exact addF_mem_keys _ _ _ _ _ _ hadd
        rw [← hk2, hd, hk1, ← keys_eq_entriesKeys] at hmem
        exact hnb hmem

/-- Witness for C7: adding `keyB` to the single-leaf tree `[keyA]`. -/
theorem mst_add_immutable_witness :
    keyB ∉ (MST.mk [.leaf keyA (.val 1)] (some 0)).keys
    ∧ (MST.mk [.leaf keyA (.val 1)] (some 0)).add keyB (.val 2) none
        = Except.ok (.mk [.leaf keyA (.val 1), .leaf keyB (.val 2)] (some 0))
    ∧ (MST.mk [.leaf keyA (.val 1)] (some 0)).getPointer
        = Except.ok (.node (.mk none [.mk 0 keyA.data (.val 1) none]))
    ∧ ((MST.mk [.leaf keyA (.val 1)] (some 0)).get keyB = Except.ok none
        ∧ (MST.mk [.leaf keyA (.val 1), .leaf keyB (.val 2)] (some 0)).getPointer
            ≠ Except.ok (.node (.mk none [.mk 0 keyA.data (.val 1) none]))) :=
  ⟨by decide, rfl, rfl,
   mst_add_immutable (.mk [.leaf keyA (.val 1)] (some 0))
     (.mk [.leaf keyA (.val 1), .leaf keyB (.val 2)] (some 0))
     keyB (.val 2) (.node (.mk none [.mk 0 keyA.data (.val 1) none]))
     (by decide) rfl rfl⟩

/-! ### Round-trip lemmas for base32 / base64 / CID text -/

theorem bitsToNat_toBits8 : ∀ b : Nat, b < 256 → bitsToNat (toBits8 b) = b := by
  decide

theorem toBits5_bitsToNat : ∀ a b c d e : Bool,
    toBits5 (bitsToNat [a, b, c, d, e]) = [a, b, c, d, e] := by decide

theorem toBits6_bitsToNat : ∀ a b c d e f : Bool,
    toBits6 (bitsToNat [a, b, c, d, e, f]) = [a, b, c, d, e, f] := by decide

theorem bitsToNat5_lt : ∀ a b c d e : Bool, bitsToNat [a, b, c, d, e] < 32 := by
  decide

theorem bitsToNat6_lt : ∀ a b c d e f : Bool,
    bitsToNat [a, b, c, d, e, f] < 64 := by decide

theorem b32val_b32char : ∀ v : Nat, v < 32 → b32val (b32char v) = some v := by
  decide

theorem b64val_b64char : ∀ v : Nat, v < 64 → b64val (b64char v) = some v := by
  decide

theorem b64char_ne_pad : ∀ v : Nat, v < 64 → (b64char v == '=') = false := by
  decide

theorem group8_cons (x7 x6 x5 x4 x3 x2 x1 x0 : Bool) (tl : List Bool) :
    group8 (x7 :: x6 :: x5 :: x4 :: x3 :: x2 :: x1 :: x0 :: tl)
      = [x7, x6, x5, x4, x3, x2, x1, x0] :: group8 tl := rfl

theorem group8_small : ∀ l : List Bool, l.length < 8 → group8 l = []
  | [], _ => rfl
  | [_], _ => rfl
  | [_, _], _ => rfl
  | [_, _, _], _ => rfl
  | [_, _, _, _], _ => rfl
  | [_, _, _, _, _], _ => rfl
  | [_, _, _, _, _, _], _ => rfl
  | [_, _, _, _, _, _, _], _ => rfl
  | _ :: _ :: _ :: _ :: _ :: _ :: _ :: _ :: _, h => absurd h (by simp)

/-- Re-chunking the flattened bytes (plus fewer than eight stray bits)
recovers the bytes. -/
theorem g8map : ∀ (bytes : List Nat) (padl : List Bool),
    (∀ b ∈ bytes, b < 256) → padl.length < 8 →
    (group8 (bytes.flatMap toBits8 ++ padl)).map bitsToNat = bytes := by
  intro bytes
  induction bytes with
  | nil =>
    intro padl _ hp
    simp [group8_small padl hp]
  | cons b rest ih =>
    intro padl hall hp
    have hb : b < 256 := hall b (List.mem_cons_self _ _)
    have hrest : ∀ x ∈ rest, x < 256 := fun x hx => hall x (List.mem_cons_of_mem _ hx)
    have hexp : (b :: rest).flatMap toBits8 ++ padl
        = b.testBit 7 :: b.testBit 6 :: b.testBit 5 :: b.testBit 4 ::
          b.testBit 3 :: b.testBit 2 :: b.testBit 1 :: b.testBit 0 ::
          (rest.flatMap toBits8 ++ padl) := by
      simp [toBits8]
    rw [hexp, group8_cons, List.map_cons, ih padl hrest hp]
    have hbb := bitsToNat_toBits8 b hb
    simp only [toBits8] at hbb
    rw [hbb]

theorem b32chars_facts : ∀ l : List Bool, l.length % 5 = 0 →
    ((group5 l).map (fun g => b32char (bitsToNat g))).mapM b32val
        = some ((group5 l).map bitsToNat)
    ∧ ((group5 l).map bitsToNat).flatMap toBits5 = l
  | [], _ => ⟨rfl, rfl⟩
  | [_], h => absurd h (by simp)
  | [_, _], h => absurd h (by simp)
  | [_, _, _], h => absurd h (by simp)
  | [_, _, _, _], h => absurd h (by simp)
  | a :: b :: c :: d :: e :: rest, h => by
    have h' : rest.length % 5 = 0 := by
      simp [List.length_cons] at h
      omega
    obtain ⟨ih1, ih2⟩ := b32chars_facts rest h'
    have hg : group5 (a :: b :: c :: d :: e :: rest)
        = [a, b, c, d, e] :: group5 rest := rfl
    constructor
    · rw [hg, List.map_cons, List.mapM_cons,
        b32val_b32char _ (bitsToNat5_lt a b c d e), ih1]
      rfl
    · rw [hg, List.map_cons, List.flatMap_cons, toBits5_bitsToNat, ih2]
      rfl

theorem b64chars_facts : ∀ l : List Bool, l.length % 6 = 0 →
    (((group6 l).map (fun g => b64char (bitsToNat g))).mapM b64val
        = some ((group6 l).map bitsToNat))
    ∧ (((group6 l).map bitsToNat).flatMap toBits6 = l)
    ∧ (((group6 l).map (fun g => b64char (bitsToNat g))).any
        (fun c => c == '=') = false)
    ∧ 6 * ((group6 l).map (fun g => b64char (bitsToNat g))).length = l.length
  | [], _ => ⟨rfl, rfl, rfl, rfl⟩
  | [_], h => absurd h (by simp)
  | [_, _], h => absurd h (by simp)
  | [_, _, _], h => absurd h (by simp)
  | [_, _, _, _], h => absurd h (by simp)
  | [_, _, _, _, _], h => absurd h (by simp)
  | a :: b :: c :: d :: e :: f :: rest, h => by
    have h' : rest.length % 6 = 0 := by
      simp [List.length_cons] at h
      omega
    obtain ⟨ih1, ih2, ih3, ih4⟩ := b64chars_facts rest h'
    have hg : group6 (a :: b :: c :: d :: e :: f :: rest)
        = [a, b, c, d, e, f] :: group6 rest := rfl
    refine ⟨?_, ?_, ?_, ?_⟩
    · rw [hg, List.map_cons, List.mapM_cons,
        b64val_b64char _ (bitsToNat6_lt a b c d e f), ih1]
      rfl
    · rw [hg, List.map_cons, List.flatMap_cons, toBits6_bitsToNat, ih2]
      rfl
    · rw [hg, List.map_cons, List.any_cons,
        b64char_ne_pad _ (bitsToNat6_lt a b c d e f), ih3]
      rfl
    · rw [hg, List.map_cons, List.length_cons]
      simp only [List.length_cons]
      omega

theorem length_flatMap_toBits8 (bs : List Nat) :
    (bs.flatMap toBits8).length = 8 * bs.length := by
  induction bs with
  | nil => rfl
  | cons b rest ih =>
    rw [List.flatMap_cons, List.length_append, ih]
    simp [toBits8]
    omega

theorem padBits_eq (n : Nat) (l : List Bool) :
    padBits n l = l ++ List.replicate ((n - l.length % n) % n) false := rfl

theorem padBits5_len (l : List Bool) : (padBits 5 l).length % 5 = 0 := by
  rw [padBits_eq, List.length_append, List.length_replicate]
  omega

theorem padBits6_len (l : List Bool) : (padBits 6 l).length % 6 = 0 := by
  rw [padBits_eq, List.length_append, List.length_replicate]
  omega

/-- The base32 round trip on byte lists. -/
theorem b32_roundtrip (bytes : List Nat) (h : ∀ b ∈ bytes, b < 256) :
    b32decode (b32encode bytes) = some bytes := by
  unfold b32encode b32decode
  obtain ⟨h1, h2⟩ := b32chars_facts _ (padBits5_len (bytes.flatMap toBits8))
  rw [h1, Option.map_some', h2, padBits_eq,
    g8map bytes _ h (by rw [List.length_replicate]; omega : (List.replicate
      ((5 - (bytes.flatMap toBits8).length % 5) % 5) false).length < 8)]

/-- CID text round trip for well-formed CIDs. -/
theorem cid_roundtrip (c : Cid) (h : c.wf = true) :
    cidFromString (cidToString c) = some c := by
  obtain ⟨codec, digest⟩ := c
  simp only [Cid.wf, Bool.and_eq_true, Bool.or_eq_true, beq_iff_eq,
    List.all_eq_true, decide_eq_true_eq] at h
  obtain ⟨⟨hcodec, hlen⟩, hall⟩ := h
  have hb : ∀ b ∈ (Cid.mk codec digest).bytes, b < 256 := by
    intro b hb
    simp only [Cid.bytes, List.mem_cons] at hb
    rcases hb with h1 | h1 | h1 | h1 | h1
    · omega
    · rcases hcodec with hc | hc <;> omega
    · omega
    · omega
    · exact hall b h1
  unfold cidToString cidFromString
  show (match ('b' :: b32encode (Cid.mk codec digest).bytes : List Char) with
    | 'b' :: rest => _
    | _ => none) = _
  simp only
  rw [b32_roundtrip _ hb]
  simp only [Cid.bytes]
  rcases hcodec with hc | hc <;>
    simp [hc, hlen]

theorem takeWhile_replicate_append (p : Char → Bool) (c : Char) (n : Nat)
    (l : List Char) (hc : p c = true) :
    (List.replicate n c ++ l).takeWhile p = List.replicate n c ++ l.takeWhile p := by
  induction n with
  | zero => simp
  | succ n ih => simp [List.replicate_succ, List.takeWhile_cons, hc, ih]

theorem takeWhile_eq_nil_of_any_false (p : Char → Bool) (l : List Char)
    (h : l.any p = false) : l.takeWhile p = [] := by
  cases l with
  | nil => rfl
  | cons a rest =>
    simp only [List.any_cons, Bool.or_eq_false_iff] at h
    simp [List.takeWhile_cons, h.1]

theorem countTrailingEq_append_pad (cs : List Char) (npad : Nat)
    (hcs : cs.any (fun c => c == '=') = false) :
    countTrailingEq (cs ++ List.replicate npad '=') = npad := by
  unfold countTrailingEq
  rw [List.reverse_append, List.reverse_replicate,
    takeWhile_replicate_append _ _ _ _ (by rfl),
    takeWhile_eq_nil_of_any_false _ _ (by simpa using hcs)]
  simp

/-- The standard (padded) base64 round trip on byte lists. -/
theorem b64_roundtrip (bytes : List Nat) (h : ∀ b ∈ bytes, b < 256) :
    b64decode (b64encode bytes) = some bytes := by
  obtain ⟨h1, h2, h3, h4⟩ := b64chars_facts _ (padBits6_len (bytes.flatMap toBits8))
  unfold b64encode b64decode
  set cs := (group6 (padBits 6 (bytes.flatMap toBits8))).map
    (fun g => b64char (bitsToNat g)) with hcs
  set npad := (4 - cs.length % 4) % 4 with hnpad
  have hdata : (String.mk (cs ++ List.replicate npad '=')).data
      = cs ++ List.replicate npad '=' := rfl
  rw [hdata]
  have hlen4 : (cs ++ List.replicate npad '=').length % 4 = 0 := by
    rw [List.length_append, List.length_replicate]
    omega
  rw [if_neg (by omega : ¬ (cs ++ List.replicate npad '=').length % 4 ≠ 0)]
  rw [countTrailingEq_append_pad cs npad h3]
  have hpadlen : (padBits 6 (bytes.flatMap toBits8)).length
      = (bytes.flatMap toBits8).length
        + ((6 - (bytes.flatMap toBits8).length % 6) % 6) := by
    rw [padBits_eq, List.length_append, List.length_replicate]
  have hnp2 : npad ≤ 2 := by
    have hflat := length_flatMap_toBits8 bytes
    omega
  rw [if_neg (by omega : ¬ npad > 2)]
  have hbody : (cs ++ List.replicate npad '=').take
      ((cs ++ List.replicate npad '=').length - npad) = cs := by
    rw [List.length_append, List.length_replicate]
    have : cs.length + npad - npad = cs.length := by omega
    rw [this]
    exact List.take_left cs _
  rw [hbody, if_neg (by simp [h3] : ¬ cs.any (fun c => c == '=') = true)]
  rw [h1, Option.map_some', h2, padBits_eq,
    g8map bytes _ h (by rw [List.length_replicate]; omega)]

theorem jsonFromIpldMap_length : ∀ m : IpldMap,
    (jsonFromIpldMap m).length = m.length
  | .nil => rfl
  | .cons k v rest => by
    simp [jsonFromIpldMap, IpldMap.length, jsonFromIpldMap_length rest]

theorem jsonFromIpld_str_inv (v0 : IpldValue) (s : String)
    (h : jsonFromIpld v0 = .str s) : v0 = .str s := by
  cases v0 <;> simp_all [jsonFromIpld]

mutual

theorem ipldRoundTripAux : ∀ v : IpldValue, goodIpld v = true →
    ipldFromJson (jsonFromIpld v) = v
  | .null, _ => rfl
  | .bool b, _ => rfl
  | .num n, _ => rfl
  | .str s, h => by
    simp only [goodIpld, Option.isNone_iff_eq_none] at h
    simp [jsonFromIpld, ipldFromJson, h]
  | .cid c, h => by
    simp only [goodIpld] at h
    simp [jsonFromIpld, ipldFromJson, List.lookup, cid_roundtrip c h]
  | .bytes bs, h => by
    simp only [goodIpld] at h
    have hb : ∀ b ∈ bs, b < 256 := by
      intro b hb
      have := List.all_eq_true.mp h b hb
      simpa using this
    simp [jsonFromIpld, ipldFromJson, List.lookup, b64_roundtrip bs hb]
  | .arr items, h => by
    simp only [goodIpld] at h
    simp [jsonFromIpld, ipldFromJson, ipldRoundTripAuxList items h]
  | .obj m, h => by
    simp only [goodIpld, Bool.and_eq_true] at h
    obtain ⟨hshape, hgood⟩ := h
    have hmap := ipldRoundTripAuxMap m hgood
    simp only [jsonFromIpld, ipldFromJson]
    rw [jsonFromIpldMap_length]
    cases hm1 : m.length == 1 with
    | false => simp [hmap]
    | true =>
      simp only [if_pos rfl]
      have hm1' : m.length = 1 := by simpa using hm1
      match m, hm1', hshape, hgood, hmap with
      | .nil, hm1', _, _, _ => simp [IpldMap.length] at hm1'
      | .cons _ _ (.cons _ _ _), hm1', _, _, _ =>
        simp [IpldMap.length] at hm1'
      | .cons k v0 .nil, _, hshape, hgood, hmap =>
        simp only [jsonFromIpldMap, List.lookup]
        simp only [jsonFromIpldMap] at hmap
        by_cases hk : ("$link" : String) = k
        · subst hk
          cases hj : jsonFromIpld v0 with
          | str s =>
            have hv0 : v0 = .str s := jsonFromIpld_str_inv v0 s hj
            subst hv0
            have hparse : cidFromString s = none := by
              simp only [isLinkBytesShape, Bool.not_eq_true',
                Bool.or_eq_false_iff, Bool.and_eq_false_iff] at hshape
              rcases hshape.1 with hc | hc
              · simp at hc
              · cases hcs : cidFromString s with
                | none => rfl
                | some c2 => rw [hcs] at hc; simp at hc
            simp only [jsonFromIpld] at hmap
            simp [hparse, hmap]
          | null => rw [hj] at hmap; simp [hmap]
          | bool b => rw [hj] at hmap; simp [hmap]
          | num n => rw [hj] at hmap; simp [hmap]
          | arr l => rw [hj] at hmap; simp [hmap]
          | obj o => rw [hj] at hmap; simp [hmap]
        · by_cases hk2 : ("$bytes" : String) = k
          · subst hk2
            cases hj : jsonFromIpld v0 with
            | str s =>
              have hv0 : v0 = .str s := jsonFromIpld_str_inv v0 s hj
              subst hv0
              have hdec : b64decode s = none := by
                simp only [isLinkBytesShape, Bool.not_eq_true',
                  Bool.or_eq_false_iff, Bool.and_eq_false_iff] at hshape
                rcases hshape.2 with hc | hc
                · simp at hc
                · cases hds : b64decode s with
                  | none => rfl
                  | some bs2 => rw [hds] at hc; simp at hc
              simp only [jsonFromIpld] at hmap
              simp [hdec, hmap]
            | null => rw [hj] at hmap; simp [hmap]
            | bool b => rw [hj] at hmap; simp [hmap]
            | num n => rw [hj] at hmap; simp [hmap]
            | arr l => rw [hj] at hmap; simp [hmap]
            | obj o => rw [hj] at hmap; simp [hmap]
          · have hbeq1 : (("$link" : String) == k) = false := by
              simpa using hk
            have hbeq2 : (("$bytes" : String) == k) = false := by
              simpa using hk2
            simp [hbeq1, hbeq2, hmap]

theorem ipldRoundTripAuxList : ∀ l : List IpldValue, goodIpldList l = true →
    ipldFromJsonList (jsonFromIpldList l) = l
  | [], _ => rfl
  | v :: rest, h => by
    simp only [goodIpldList, Bool.and_eq_true] at h
    simp [jsonFromIpldList, ipldFromJsonList, ipldRoundTripAux v h.1,
      ipldRoundTripAuxList rest h.2]

theorem ipldRoundTripAuxMap : ∀ m : IpldMap, goodIpldMap m = true →
    ipldFromJsonMap (jsonFromIpldMap m) = m
  | .nil, _ => rfl
  | .cons k v rest, h => by
    simp only [goodIpldMap, Bool.and_eq_true] at h
    simp [jsonFromIpldMap, ipldFromJsonMap, ipldRoundTripAux v h.1,
      ipldRoundTripAuxMap rest h.2]

end

/-! ### C8: the JSON↔IPLD round trip -/

/-- C8 (counterexample): the claim as stated fails. The float-free IPLD value
`.obj {"$bytes": ""}` serializes to the JSON object `{"$bytes": ""}`, which the
decoder reads back as `.bytes []`, not as the original object. -/
theorem ipld_json_roundtrip_counterexample :
    ipldFromJson (jsonFromIpld badBytesObj) ≠ badBytesObj := by
  intro h
  have h2 : IpldValue.bytes [] = badBytesObj := h
  simp only [badBytesObj] at h2
  exact IpldValue.noConfusion h2

/-- C8 (amended): the round trip `ipldFromJson ∘ jsonFromIpld` is the identity
on every IPLD value that contains no string parsing as a CID, only well-formed
CIDs, only in-range bytes, and no plain object of the reserved single-key
`$link`/`$bytes` shape (floats are already absent from the model). -/
theorem ipld_json_roundtrip_amended (v : IpldValue) (h : goodIpld v = true) :
    ipldFromJson (jsonFromIpld v) = v :=
  ipldRoundTripAux v h

/-- Witness for the amended C8 round trip at a concrete object holding a CID
link, bytes, a string and a mixed array. -/
theorem ipld_json_roundtrip_amended_witness :
    goodIpld goodSample = true ∧
    ipldFromJson (jsonFromIpld goodSample) = goodSample :=
  ⟨by decide, ipld_json_roundtrip_amended goodSample (by decide)⟩

/-! ### C10: the untyped blob-reference path -/

/-- C10: a map with string `cid` (parsing as a valid CID) and `mimeType`
fields but no `$type: "blob"` field is accepted by the blob-reference
conversion, producing a `BlobRef` with the sentinel size `-1` and the untyped
original. -/
theorem blob_ref_untyped_accepted (m : IpldMap) (s mt : String) (c : Cid)
    (hcid : m.lookup "cid" = some (.str s))
    (hparse : cidFromString s = some c)
    (hmime : m.lookup "mimeType" = some (.str mt))
    (htype : m.lookup "$type" ≠ some (.str "blob")) :
    blobRefFromMap m = .ok { refCid := c, mimeType := mt, size := -1,
                             original := .untyped ⟨s, mt⟩ } := by
  have huntyped : blobRefUntypedPath m =
      .ok { refCid := c, mimeType := mt, size := -1,
            original := .untyped ⟨s, mt⟩ } := by
    simp [blobRefUntypedPath, hcid, hmime, blobRefFromJsonRef, hparse]
  unfold blobRefFromMap
  cases ht : m.lookup "$type" with
  | none => exact huntyped
  | some v =>
    cases v
    case str t =>
      have hbeq : (t == "blob") = false := by
        cases hb : t == "blob" with
        | false => rfl
        | true =>
          have hteq : t = "blob" := by simpa using hb
          subst hteq
          exact absurd ht htype
      simp [hbeq, huntyped]
    all_goals exact huntyped

/-- Witness for the untyped blob-reference path at a concrete two-field map. -/
theorem blob_ref_untyped_accepted_witness :
    blobMapW.lookup "cid" = some (.str bafyCidStr) ∧
    cidFromString bafyCidStr = some bafyCid ∧
    blobMapW.lookup "mimeType" = some (.str "image/jpeg") ∧
    blobMapW.lookup "$type" ≠ some (.str "blob") ∧
    blobRefFromMap blobMapW =
      .ok { refCid := bafyCid, mimeType := "image/jpeg", size := -1,
            original := .untyped ⟨bafyCidStr, "image/jpeg"⟩ } :=
  ⟨rfl, by decide, rfl, by simp [blobMapW, IpldMap.lookup],
   blob_ref_untyped_accepted blobMapW bafyCidStr "image/jpeg" bafyCid rfl
     (by decide) rfl (by simp [blobMapW, IpldMap.lookup])⟩
